import Mathlib

/-!
Verification of the blocklist aggregator (adaway/main.py, skynet/plot.py,
adaway/plot.py) against its natural-language specification.

Modelling conventions (shallow embedding):
* Text is modelled at the level of Unicode code points: a character is a
  `Nat` (its code point), a string of source text is a `List Nat`, and a
  text file handed to `parse_hosts` is its list of lines (Python iterates
  `StringIO(text)` line by line).  Opaque keys (source URLs) stay `String`.
* Calendar dates are modelled by their ordinal day number (a `Nat`, as in
  Python `date.toordinal`): `+ 60` is `timedelta(days=60)` and `<` is date
  comparison.  A persisted `skip_until` string is modelled by `DateStr`:
  `DateStr.valid d` stands for a well-formed "YYYY-MM-DD" string denoting
  day `d` (which `datetime.strptime` parses back to `d`), and
  `DateStr.malformed raw` stands for a string `strptime` rejects with
  `ValueError`.  The code only ever consumes such strings through
  `strptime`, so a string is faithfully represented by its parse result.
* Python dictionaries keyed by URL are modelled as functions
  `String → Option _` (absent key = `none`); `d[k] = v` is a pointwise
  update, `d.get(k, dflt)` is `(f k).getD dflt`.
* Python sets of entries are `Finset (List Nat)`.
-/

/-- Code points used by the sources, written as the `Char.toNat` image of a
string literal so the numeric lists in definitions match the Python string
literals they embed. -/
def codes (s : String) : List Nat := s.data.map (fun c => c.toNat)

/-- Python `str.strip` / `str.split` whitespace (space, tab, LF, CR, FF, VT). -/
def isSpaceCode (n : Nat) : Bool :=
  decide (n = 32 ∨ n = 9 ∨ n = 10 ∨ n = 13 ∨ n = 12 ∨ n = 11)

/-- ASCII `\w` word characters of Python `re` (letters, digits, underscore),
used for `\b` word boundaries. -/
def isWordCode (n : Nat) : Bool :=
  decide ((48 ≤ n ∧ n ≤ 57) ∨ (65 ≤ n ∧ n ≤ 90) ∨ (97 ≤ n ∧ n ≤ 122) ∨ n = 95)

/-- ASCII decimal digit, the `\d` of the IPv4 regex. -/
def isDigitCode (n : Nat) : Bool := decide (48 ≤ n ∧ n ≤ 57)

/-- Python `str.lower` on one ASCII character: map A-Z (65-90) to a-z. -/
def pyLower (n : Nat) : Nat := if 65 ≤ n ∧ n ≤ 90 then n + 32 else n

/-- Python `str.lower` on a whole string. -/
def toLowerL (l : List Nat) : List Nat := l.map pyLower

/-- Python `str.lstrip` (no argument): drop leading whitespace. -/
def ltrim (l : List Nat) : List Nat := l.dropWhile isSpaceCode

/-- Python `str.strip`: drop leading and trailing whitespace. -/
def trim (l : List Nat) : List Nat :=
  ((l.dropWhile isSpaceCode).reverse.dropWhile isSpaceCode).reverse

/-- Accumulator version of Python `str.split()` (split on whitespace runs,
discarding empty words); `cur` holds the current word reversed. -/
def splitWSAux (cur : List Nat) : List Nat → List (List Nat)
  | [] => if cur = [] then [] else [cur.reverse]
  | c :: cs =>
    if isSpaceCode c then
      if cur = [] then splitWSAux [] cs else cur.reverse :: splitWSAux [] cs
    else splitWSAux (c :: cur) cs

/-- Python `line.split()`. -/
def splitWS (l : List Nat) : List (List Nat) := splitWSAux [] l

/-!  Health tracker (adaway/main.py lines 44-92).  -/

/-- A stored `skip_until` date string, represented by its
`strptime(s, "%Y-%m-%d")` parse result: `valid d` is a well-formed string for
ordinal day `d`; `malformed raw` is any string `strptime` rejects. -/
inductive DateStr : Type where
  | valid : Nat → DateStr
  | malformed : String → DateStr
deriving DecidableEq, Repr

/-- Model of `datetime.strptime(s, "%Y-%m-%d").date()`: succeeds exactly on
well-formed date strings, raising `ValueError` (here `none`) otherwise. -/
def parseDate : DateStr → Option Nat
  | DateStr.valid d => some d
  | DateStr.malformed _ => none

/-- One URL's health record: the `{"consecutive_errors": n, "skip_until": s}`
dictionary written by `record_result`.  `skip_until = none` is JSON `null`. -/
structure HealthEntry : Type where
  consecutive_errors : Nat
  skip_until : Option DateStr
deriving DecidableEq, Repr

/-- The error tracker: a dictionary from URL to health record
(`none` = key absent). -/
def Tracker : Type := String → Option HealthEntry

/-- Fresh-record default used by `tracker.get(url, {"consecutive_errors": 0,
"skip_until": None})`. -/
def defaultEntry : HealthEntry := ⟨0, none⟩

/-- adaway/main.py `should_skip_url(url, tracker)` at current day `today`:
true iff the stored `skip_until` parses and lies strictly after `today`.
`tracker.get(url, {})` yields no `skip_until`, which is the same as the
default record here. -/
def should_skip_url (url : String) (today : Nat) (tracker : Tracker) : Bool :=
  let info := (tracker url).getD defaultEntry
  match info.skip_until with
  | none => false
  | some ds =>
    match parseDate ds with
    | none => false
    | some d => decide (today < d)

/-- adaway/main.py `record_result(url, success, tracker)` on day `today`:
success resets the record; failure increments the count and, at three or
more, blocks the URL until `today + 60` days. -/
def record_result (url : String) (success : Bool) (today : Nat)
    (tracker : Tracker) : Tracker :=
  let entry := (tracker url).getD defaultEntry
  let entry2 : HealthEntry :=
    if success then ⟨0, none⟩
    else
      let count := entry.consecutive_errors + 1
      if count < 3 then ⟨count, entry.skip_until⟩
      else ⟨count, some (DateStr.valid (today + 60))⟩
  fun v => if v = url then some entry2 else tracker v

/-- A raw persisted record as `json.load` returns it, before any field
access: each of the two fields may be absent (`none`).  For `skip_until`,
`some none` is JSON `null` and `some (some ds)` a stored string. -/
structure RawEntry : Type where
  ce : Option Nat
  su : Option (Option DateStr)
deriving DecidableEq, Repr

/-- A raw loaded tracker: URL to raw record, exactly as `json.load` yields
it (no per-record validation happens in `load_error_tracker`). -/
def RawTracker : Type := String → Option RawEntry

/-- `record_result` run on a raw loaded record, making each Python dictionary
subscript explicit: `entry["consecutive_errors"]` and `entry["skip_until"]`
raise `KeyError` (modelled as `Except.error`) when the key is absent.  The
`or` in the success branch short-circuits, so `skip_until` is only read when
`consecutive_errors` is zero. -/
def record_result_raw (url : String) (success : Bool) (today : Nat)
    (tracker : RawTracker) : Except String RawTracker :=
  let entry := (tracker url).getD ⟨some 0, some none⟩
  let store : RawEntry → Except String RawTracker := fun e =>
    Except.ok (fun v => if v = url then some e else tracker v)
  if success then
    match entry.ce with
    | none => Except.error "KeyError: consecutive_errors"
    | some ce =>
      if 0 < ce then store ⟨some 0, some none⟩
      else
        match entry.su with
        | none => Except.error "KeyError: skip_until"
        | some _ => store ⟨some 0, some none⟩
  else
    match entry.ce with
    | none => Except.error "KeyError: consecutive_errors"
    | some ce =>
      let count := ce + 1
      if count < 3 then store ⟨some count, entry.su⟩
      else store ⟨some count, some (some (DateStr.valid (today + 60)))⟩

/-!  Normalizer (adaway/main.py lines 155-190).  -/

/-- Shared shape of `re.match(r"^[CLASS]+\.[LETTER]{2,}$", s)` for a
character class `classFn` and a letter class `letterFn`: the string must end
in at least two letters, preceded by a dot, preceded by a nonempty run of
class characters.  Because the letters must reach the end of the string, the
dot of any successful match is the one right before the maximal trailing
letter run, so the regex is decided by inspecting the reversed string. -/
def domainCheck (classFn letterFn : Nat → Bool) (s : List Nat) : Bool :=
  decide (2 ≤ (s.reverse.takeWhile letterFn).length) &&
    match s.reverse.dropWhile letterFn with
    | c :: front => decide (c = 46) && decide (front ≠ []) && front.all classFn
    | [] => false

/-- Character class `[a-zA-Z]` of the plain-domain regex. -/
def isLetterCI (n : Nat) : Bool := decide ((65 ≤ n ∧ n ≤ 90) ∨ (97 ≤ n ∧ n ≤ 122))

/-- Character class `[a-zA-Z0-9.-]` of the plain-domain regex. -/
def isClassCI (n : Nat) : Bool :=
  decide ((65 ≤ n ∧ n ≤ 90) ∨ (97 ≤ n ∧ n ≤ 122) ∨ (48 ≤ n ∧ n ≤ 57) ∨ n = 46 ∨ n = 45)

/-- Character class `[a-z]` of the canonical (lowercase) domain grammar. -/
def isLowerLetter (n : Nat) : Bool := decide (97 ≤ n ∧ n ≤ 122)

/-- Character class `[a-z0-9.-]` of the canonical domain grammar. -/
def isClassLower (n : Nat) : Bool :=
  decide ((97 ≤ n ∧ n ≤ 122) ∨ (48 ≤ n ∧ n ≤ 57) ∨ n = 46 ∨ n = 45)

/-- The regex `^[a-zA-Z0-9.-]+\.[a-zA-Z]{2,}$` of `normalize_adblock_line`. -/
def isDomainGrammarCI (s : List Nat) : Bool := domainCheck isClassCI isLetterCI s

/-- The canonical lowercase domain grammar `^[a-z0-9.-]+\.[a-z]{2,}$` named
by the specification for entries. -/
def isDomainGrammar (s : List Nat) : Bool := domainCheck isClassLower isLowerLetter s

/-- Python `domain.split("^")[0]`: everything before the first caret (94). -/
def beforeCaret (l : List Nat) : List Nat := l.takeWhile (fun c => !(c = 94 : Bool))

/-- Python `line.lstrip("|").rstrip("|")`: drop leading and trailing pipes
(124). -/
def stripPipes (l : List Nat) : List Nat :=
  ((l.dropWhile (fun c => c = 124)).reverse.dropWhile (fun c => c = 124)).reverse

/-- Python `re.sub(r"^https?://", "", d)`: drop one leading scheme. -/
def stripScheme (l : List Nat) : List Nat :=
  if l.take 8 = codes "https://" then l.drop 8
  else if l.take 7 = codes "http://" then l.drop 7
  else l

/-- First branch of `normalize_adblock_line`: a `||host^...` blocking rule.
Returns `none` on an empty extracted domain, letting control fall through to
the next branch exactly as the Python `if domain:` test does. -/
def tryPipePipe (line : List Nat) : Option (List Nat) :=
  if line.take 2 = [124, 124] then
    if trim (beforeCaret (line.drop 2)) = [] then none
    else some (toLowerL (trim (beforeCaret (line.drop 2))))
  else none

/-- Second branch of `normalize_adblock_line`: a `|scheme://host|` anchored
rule (also reached by `||` lines whose first branch extracted nothing). -/
def tryPipe (line : List Nat) : Option (List Nat) :=
  if line.take 1 = [124] then
    if trim (beforeCaret (stripScheme (stripPipes line))) = [] then none
    else some (toLowerL (trim (beforeCaret (stripScheme (stripPipes line)))))
  else none

/-- Third branch of `normalize_adblock_line`: a plain domain, accepted only
when the line is nonempty, free of `* / | ^`, and matches the (case
insensitive) domain regex. -/
def tryPlain (line : List Nat) : Option (List Nat) :=
  if line ≠ [] ∧ 42 ∉ line ∧ 47 ∉ line ∧ 124 ∉ line ∧ 94 ∉ line ∧
      isDomainGrammarCI line = true
  then some (toLowerL line) else none

/-- adaway/main.py `normalize_adblock_line(line)`: the three branches in
source order, each falling through to the next when it yields nothing. -/
def normalize_adblock_line (line : List Nat) : Option (List Nat) :=
  match tryPipePipe line with
  | some e => some e
  | none =>
    match tryPipe line with
    | some e => some e
    | none => tryPlain line

/-- One iteration of the `parse_hosts` loop: strip the line, skip blanks and
comments, take the second token of a `0.0.0.0` / `127.0.0.1` hosts line, try
the single token of a one-token line as an adblock rule, and finally try the
whole line as an adblock rule.  Yields the at most one entry the iteration
adds to the set. -/
def normalizeLine (raw : List Nat) : Option (List Nat) :=
  if trim raw = [] ∨ (trim raw).head? = some 35 then none
  else
    if 2 ≤ (splitWS (trim raw)).length ∧
        ((splitWS (trim raw)).head? = some (codes "0.0.0.0") ∨
          (splitWS (trim raw)).head? = some (codes "127.0.0.1"))
    then some (toLowerL ((splitWS (trim raw)).getD 1 []))
    else
      match (if (splitWS (trim raw)).length = 1
              then normalize_adblock_line ((splitWS (trim raw)).getD 0 [])
              else none) with
      | some c => some c
      | none => normalize_adblock_line (trim raw)

/-- adaway/main.py `parse_hosts(text)`: fold the per-line normalization over
the lines of the text, accumulating the set of entries. -/
def parse_hosts (lines : List (List Nat)) : Finset (List Nat) :=
  lines.foldl
    (fun acc l =>
      match normalizeLine l with
      | some e => insert e acc
      | none => acc)
    ∅

/-!  Aggregator (adaway/main.py lines 230-269).  -/

/-- The mutable run state of `main`: the error tracker, the
`domains_per_source` dictionary and the `all_domains` set. -/
@[ext]
structure AggState : Type where
  tracker : Tracker
  per : String → Option Nat
  merged : Finset (List Nat)

/-- Body of the `as_completed` loop of `main` for one finished fetch
`(url, text)`: a non-empty text is parsed, counted and merged and records a
success; an empty text records `0` entries and a failure.  The text is its
list of lines, so empty text is `[]`. -/
def processOne (today : Nat) (st : AggState) (r : String × List (List Nat)) :
    AggState :=
  if r.2 ≠ [] then
    let domains := parse_hosts r.2
    { tracker := record_result r.1 true today st.tracker
      per := fun u => if u = r.1 then some domains.card else st.per u
      merged := st.merged ∪ domains }
  else
    { tracker := record_result r.1 false today st.tracker
      per := fun u => if u = r.1 then some 0 else st.per u
      merged := st.merged }

/-- The `as_completed` loop of `main` over the completed fetches in their
completion order. -/
def aggregate (today : Nat) (results : List (String × List (List Nat)))
    (st : AggState) : AggState :=
  results.foldl (processOne today) st

/-- The submission loop of `main`: every URL the tracker says to skip gets
`domains_per_source[url] = 0` and is excluded from the fetch batch. -/
def initPer (urls : List String) (today : Nat) (tr0 : Tracker) :
    String → Option Nat :=
  urls.foldl
    (fun p u =>
      if should_skip_url u today tr0 then
        fun v => if v = u then some 0 else p v
      else p)
    (fun _ => none)

/-- The URLs actually submitted to the executor. -/
def fetchList (urls : List String) (today : Nat) (tr0 : Tracker) : List String :=
  urls.filter (fun u => !should_skip_url u today tr0)

/-- The whole run of `main` on one day: skip bookkeeping, then the
completion loop over `results` (in the theorems, `results` ranges over the
permutations of the fetch outputs of the non-skipped URLs, since completion
order is arbitrary). -/
def runMain (urls : List String) (today : Nat) (tr0 : Tracker)
    (results : List (String × List (List Nat))) : AggState :=
  aggregate today results ⟨tr0, initPer urls today tr0, ∅⟩

/-!  History series (skynet/plot.py lines 37-82; adaway/plot.py has the same
`trim_history` and adaway/main.py the same overwrite-then-sort shape).
A CSV row is a `(date, value)` pair, the date being the raw string of the
`date` column (Python compares and sorts these strings). -/

/-- The retention window `MAX_ENTRIES`. -/
def MAX_ENTRIES : Nat := 60

/-- Python string `<=` on the date column: lexicographic on code points. -/
def lexLe : List Nat → List Nat → Bool
  | [], _ => true
  | _ :: _, [] => false
  | a :: as, b :: bs =>
    if a < b then true else if b < a then false else lexLe as bs

/-- The update loop of `log_count_to_history`: overwrite the value of the
first row with the given date, appending a new row when no date matches. -/
def updateRow : List (List Nat × Nat) → List Nat → Nat → List (List Nat × Nat)
  | [], d, c => [(d, c)]
  | r :: rs, d, c => if r.1 = d then (d, c) :: rs else r :: updateRow rs d c

/-- Stable insertion of a row into an already sorted prefix: the new row
goes after every existing row whose date is `<=` its own, as Python's stable
`sorted(rows, key=date)` places it. -/
def insertRow (r : List Nat × Nat) : List (List Nat × Nat) → List (List Nat × Nat)
  | [] => [r]
  | x :: xs => if lexLe x.1 r.1 then x :: insertRow r xs else r :: x :: xs

/-- Python `sorted(rows, key=lambda x: x["date"])` (stable, ascending). -/
def sortRows (rows : List (List Nat × Nat)) : List (List Nat × Nat) :=
  rows.foldl (fun acc r => insertRow r acc) []

/-- skynet/plot.py `trim_history` on the data rows: when more than
`MAX_ENTRIES` rows exist, keep only the last `MAX_ENTRIES` (`data[-60:]`). -/
def trim_history (data : List (List Nat × Nat)) : List (List Nat × Nat) :=
  if MAX_ENTRIES < data.length then data.drop (data.length - MAX_ENTRIES) else data

/-- skynet/plot.py `log_count_to_history(date_str, unique_count)` acting on
the stored rows: overwrite-or-append today's row, sort ascending by date,
then trim to the retention window. -/
def log_count_to_history (rows : List (List Nat × Nat)) (date_str : List Nat)
    (count : Nat) : List (List Nat × Nat) :=
  trim_history (sortRows (updateRow rows date_str count))

/-!  IPv4 extraction (skynet/plot.py lines 32-34): findall of
`\b(?:(?:25[0-5]|2[0-4]\d|1\d{2}|[1-9]?\d)\.){3}(?:25[0-5]|2[0-4]\d|1\d{2}|[1-9]?\d)\b`.  -/

/-- The candidate ways one octet alternation can consume the head of the
input, as `(consumed, remaining)` pairs in the regex's alternation order
(`25[0-5]`, then `2[0-4]\d`, then `1\d{2}`, then `[1-9]?\d` greedily with
the digit-pair form before the single digit). -/
def octetSplits (cs : List Nat) : List (List Nat × List Nat) :=
  (match cs with
   | a :: b :: c :: rest =>
     (if a = 50 ∧ b = 53 ∧ (48 ≤ c ∧ c ≤ 53) then [([a, b, c], rest)] else []) ++
     (if a = 50 ∧ (48 ≤ b ∧ b ≤ 52) ∧ isDigitCode c = true then [([a, b, c], rest)] else []) ++
     (if a = 49 ∧ isDigitCode b = true ∧ isDigitCode c = true then [([a, b, c], rest)] else [])
   | _ => []) ++
  (match cs with
   | a :: b :: rest =>
     if (49 ≤ a ∧ a ≤ 57) ∧ isDigitCode b = true then [([a, b], rest)] else []
   | _ => []) ++
  (match cs with
   | a :: rest => if isDigitCode a = true then [([a], rest)] else []
   | _ => [])

/-- Trailing `\b` of the pattern: the matched digit must be followed by the
end of the text or a non-word character. -/
def rightBoundary : List Nat → Bool
  | [] => true
  | c :: _ => !isWordCode c

/-- Backtracking match of `n` dot-separated octets at the head of the input,
ending with the trailing `\b`; returns the consumed characters and the rest.
Alternatives are tried in the regex engine's order, later octets reconsidering
earlier choices on failure exactly as backtracking does. -/
def matchOcts : Nat → List Nat → Option (List Nat × List Nat)
  | 0, _ => none
  | 1, cs =>
    (octetSplits cs).findSome? fun p =>
      if rightBoundary p.2 then some p else none
  | n + 2, cs =>
    (octetSplits cs).findSome? fun p =>
      match p.2 with
      | c :: r2 =>
        if c = 46 then
          match matchOcts (n + 1) r2 with
          | some (m, rest) => some (p.1 ++ c :: m, rest)
          | none => none
        else none
      | [] => none

/-- Leading `\b` of the pattern at a scan position: the previous character
(if any) must be a non-word character, the first matched character being a
digit. -/
def leftBoundary : Option Nat → Bool
  | none => true
  | some p => !isWordCode p

/-- The scan loop of `re.findall`: try the pattern at each position from
left to right, resuming after the end of each match (matches never overlap);
`prev` is the character before the current position, `fuel` a step bound
(each step consumes at least one character, so `text.length` suffices). -/
def scanIPs : Nat → Option Nat → List Nat → List (List Nat)
  | 0, _, _ => []
  | _ + 1, _, [] => []
  | fuel + 1, prev, c :: cs =>
    if leftBoundary prev then
      match matchOcts 4 (c :: cs) with
      | some (m, rest) => m :: scanIPs fuel (some (m.getLastD c)) rest
      | none => scanIPs fuel (some c) cs
    else scanIPs fuel (some c) cs

/-- skynet/plot.py `extract_ips_from_text(text)`: the set of findall
matches, as a duplicate-free list. -/
def extract_ips_from_text (text : List Nat) : List (List Nat) :=
  (scanIPs text.length none text).dedup

/-- Modelled from the spec: one octet of a dotted-quad IPv4 address, "each
octet in [0,255]" — a nonempty string of decimal digits whose value is at
most 255. -/
def specOctet (o : List Nat) : Prop :=
  o ≠ [] ∧ (∀ d ∈ o, isDigitCode d = true) ∧
    o.foldl (fun a d => a * 10 + (d - 48)) 0 ≤ 255

/-- Modelled from the spec: a dotted-quad IPv4 address — four octets
separated by dots (code 46). -/
def IPv4Shape (s : List Nat) : Prop :=
  ∃ o1 o2 o3 o4, s = o1 ++ 46 :: (o2 ++ 46 :: (o3 ++ 46 :: o4)) ∧
    specOctet o1 ∧ specOctet o2 ∧ specOctet o3 ∧ specOctet o4

/-- Chain of `n` dot-separated octets, the shape `matchOcts n` consumes;
`OctChain 4` is the dotted-quad shape. -/
def OctChain : Nat → List Nat → Prop
  | 0, _ => False
  | 1, m => specOctet m
  | n + 2, m => ∃ o m2, m = o ++ 46 :: m2 ∧ specOctet o ∧ OctChain (n + 1) m2

/-- Modelled from the spec: `s` occurs in `text` as a substring delimited by
non-word boundaries (the characters adjacent to the occurrence, when they
exist, are non-word characters). -/
def boundedOccur (text s : List Nat) : Prop :=
  ∃ pre post, text = pre ++ s ++ post ∧
    (∀ p, pre.getLast? = some p → isWordCode p = false) ∧
    (∀ q, post.head? = some q → isWordCode q = false)

/-- Modelled from the spec: what claim C9 calls "a substring of the text that
is a dotted-quad IPv4 address with each octet in [0,255], delimited by
non-word boundaries". -/
def specIP (text s : List Nat) : Prop := boundedOccur text s ∧ IPv4Shape s

/-!  Theorems.  First the health tracker claims.  -/

/-- The invariant of claim C2 on one record: `skip_until` is set only when
`consecutive_errors` is at least 3. -/
def entryInv (e : HealthEntry) : Prop :=
  e.skip_until ≠ none → 3 ≤ e.consecutive_errors

/-- C1: from a default record, three consecutive failures set
`skip_until` to the (third) failure day plus 60 days; `should_skip_url` is
true the next day, false once the stored date no longer lies strictly in the
future, and a subsequent success resets the record and clears `skip_until`. -/
theorem c1_three_failures_cooldown_and_reset (url : String) (tr0 : Tracker)
    (d1 d2 d3 : Nat) (h0 : tr0 url = none ∨ tr0 url = some ⟨0, none⟩) :
    (record_result url false d3 (record_result url false d2
        (record_result url false d1 tr0))) url
      = some ⟨3, some (DateStr.valid (d3 + 60))⟩
    ∧ should_skip_url url (d3 + 1) (record_result url false d3
        (record_result url false d2 (record_result url false d1 tr0))) = true
    ∧ (∀ d, d3 + 60 ≤ d → should_skip_url url d (record_result url false d3
        (record_result url false d2 (record_result url false d1 tr0))) = false)
    ∧ (∀ d, (record_result url true d (record_result url false d3
        (record_result url false d2 (record_result url false d1 tr0)))) url
        = some ⟨0, none⟩) := by
  have hstep : ∀ (s : Bool) (today : Nat) (tr : Tracker),
      (record_result url s today tr) url
        = some (if s then ⟨0, none⟩ else
            if ((tr url).getD defaultEntry).consecutive_errors + 1 < 3 then
              ⟨((tr url).getD defaultEntry).consecutive_errors + 1,
                ((tr url).getD defaultEntry).skip_until⟩
            else ⟨((tr url).getD defaultEntry).consecutive_errors + 1,
                some (DateStr.valid (today + 60))⟩) := by
    intro s today tr
    cases s <;> simp [record_result]
  have h1 : (record_result url false d1 tr0) url = some ⟨1, none⟩ := by
    rw [hstep]
    rcases h0 with h | h <;> simp [h, defaultEntry]
  have h2 : (record_result url false d2 (record_result url false d1 tr0)) url
      = some ⟨2, none⟩ := by
    rw [hstep, h1]
    simp
  have h3 : (record_result url false d3 (record_result url false d2
      (record_result url false d1 tr0))) url
      = some ⟨3, some (DateStr.valid (d3 + 60))⟩ := by
    rw [hstep, h2]
    simp
  refine ⟨h3, ?_, ?_, ?_⟩
  · simp only [should_skip_url, h3]
    simp [parseDate]
  · intro d hd
    simp only [should_skip_url, h3]
    simp [parseDate]
    omega
  · intro d
    rw [hstep]
    simp

/-- C1 witness at a concrete input: url "u", empty tracker, all three
failures on day 0. -/
theorem c1_witness :
    (record_result "u" false 0 (record_result "u" false 0
        (record_result "u" false 0 (fun _ => none)))) "u"
      = some ⟨3, some (DateStr.valid 60)⟩
    ∧ should_skip_url "u" 1 (record_result "u" false 0 (record_result "u" false 0
        (record_result "u" false 0 (fun _ => none)))) = true
    ∧ should_skip_url "u" 60 (record_result "u" false 0 (record_result "u" false 0
        (record_result "u" false 0 (fun _ => none)))) = false
    ∧ (record_result "u" true 61 (record_result "u" false 0 (record_result "u" false 0
        (record_result "u" false 0 (fun _ => none))))) "u" = some ⟨0, none⟩ := by
  have h := c1_three_failures_cooldown_and_reset "u" (fun _ => none) 0 0 0 (Or.inl rfl)
  exact ⟨h.1, h.2.1, h.2.2.1 60 (by omega), h.2.2.2 61⟩

/-- C2: the invariant "skip_until is set only if consecutive_errors >= 3" is
preserved by `record_result` with either success value, on every record of
the tracker; and a success always stores the reset record. -/
theorem c2_invariant_preserved (tr : Tracker) (url : String) (s : Bool)
    (today : Nat) (u : String) (h : ∀ e, tr u = some e → entryInv e) :
    (∀ e, (record_result url s today tr) u = some e → entryInv e)
    ∧ (record_result url true today tr) url = some ⟨0, none⟩ := by
  constructor
  · intro e he
    by_cases hu : u = url
    · subst hu
      simp only [record_result, if_pos rfl, Option.some.injEq] at he
      cases s
      · cases htr : tr u with
        | none =>
          simp [htr, defaultEntry] at he
          subst he
          intro _
          simp at *
        | some e0 =>
          have hinv := h e0 htr
          simp only [htr, Option.getD_some, Bool.false_eq_true, if_false] at he
          by_cases hc : e0.consecutive_errors + 1 < 3
          · rw [if_pos hc] at he
            subst he
            intro hsu
            simp only [entryInv] at hinv
            have := hinv hsu
            omega
          · rw [if_neg hc] at he
            subst he
            intro _
            simp only
            omega
      · simp at he
        subst he
        intro hsu
        simp at hsu
    · have he2 : tr u = some e := by simpa [record_result, hu] using he
      exact h e he2
  · simp [record_result]

/-- C2 witness: a tracker holding a warned record for "u" keeps the
invariant through a failure, and a success resets. -/
theorem c2_witness :
    (∀ e, (record_result "u" false 5
        (fun v => if v = "u" then some ⟨2, none⟩ else none)) "u" = some e → entryInv e)
    ∧ (record_result "u" true 5
        (fun v => if v = "u" then some ⟨2, none⟩ else none)) "u" = some ⟨0, none⟩ := by
  have h := c2_invariant_preserved (fun v => if v = "u" then some ⟨2, none⟩ else none)
    "u" false 5 "u" (by intro e he; simp at he; subst he; intro hs; simp at hs)
  have h2 := c2_invariant_preserved (fun v => if v = "u" then some ⟨2, none⟩ else none)
    "u" true 5 "u" (by intro e he; simp at he; subst he; intro hs; simp at hs)
  exact ⟨h.1, h2.2⟩

/-- C7: `should_skip_url` is true exactly when a stored `skip_until` string
parses as a date strictly after the current day; a malformed stored string
and an unset `skip_until` both yield false. -/
theorem c7_should_skip_iff (url : String) (today : Nat) (tr : Tracker) :
    (should_skip_url url today tr = true ↔
      ∃ e ds d, tr url = some e ∧ e.skip_until = some ds ∧
        parseDate ds = some d ∧ today < d)
    ∧ (∀ e s, tr url = some e → e.skip_until = some (DateStr.malformed s) →
        should_skip_url url today tr = false)
    ∧ (∀ e, tr url = some e → e.skip_until = none →
        should_skip_url url today tr = false) := by
  refine ⟨⟨?_, ?_⟩, ?_, ?_⟩
  · intro htrue
    cases htr : tr url with
    | none => simp [should_skip_url, htr, defaultEntry] at htrue
    | some e =>
      cases hsu : e.skip_until with
      | none => simp [should_skip_url, htr, hsu, defaultEntry] at htrue
      | some ds =>
        cases ds with
        | malformed raw => simp [should_skip_url, htr, hsu, parseDate] at htrue
        | valid d =>
          have hlt : today < d := by
            simpa [should_skip_url, htr, hsu, parseDate] using htrue
          exact ⟨e, DateStr.valid d, d, rfl, hsu, rfl, hlt⟩
  · rintro ⟨e, ds, d, htr, hsu, hpd, hlt⟩
    cases ds with
    | malformed raw => simp [parseDate] at hpd
    | valid d2 =>
      simp only [parseDate, Option.some.injEq] at hpd
      subst hpd
      simp [should_skip_url, htr, hsu, parseDate, hlt]
  · intro e s htr hsu
    simp [should_skip_url, htr, hsu, parseDate]
  · intro e htr hsu
    simp [should_skip_url, htr, hsu]

/-- C7 witness: a future valid date skips, a malformed date does not. -/
theorem c7_witness :
    should_skip_url "u" 3 (fun v => if v = "u"
      then some ⟨3, some (DateStr.valid 10)⟩ else none) = true
    ∧ should_skip_url "u" 3 (fun v => if v = "u"
      then some ⟨3, some (DateStr.malformed "xx")⟩ else none) = false := by
  refine ⟨(c7_should_skip_iff "u" 3 _).1.mpr
    ⟨⟨3, some (DateStr.valid 10)⟩, DateStr.valid 10, 10, by simp, rfl, rfl, by omega⟩,
    (c7_should_skip_iff "u" 3 _).2.1 ⟨3, some (DateStr.malformed "xx")⟩ "xx" (by simp) rfl⟩

/-- A persisted store whose record for one URL is valid JSON but lacks the
`consecutive_errors` field, next to an intact record for another URL.
`json.load` hands both through unchanged. -/
def corruptStore : RawTracker := fun u =>
  if u = "https://bad.example" then some ⟨none, some none⟩
  else if u = "https://ok.example" then some ⟨some 1, some none⟩ else none

/-- C8: the code at the failing input.  A record missing
`consecutive_errors` is not treated as absent or default: `record_result`
raises `KeyError` on it (for failure and for success alike), instead of
behaving as on a fresh record; the intact record of the other URL still
works. -/
theorem c8_missing_field_raises :
    record_result_raw "https://bad.example" false 0 corruptStore
      = Except.error "KeyError: consecutive_errors"
    ∧ record_result_raw "https://bad.example" true 0 corruptStore
      = Except.error "KeyError: consecutive_errors"
    ∧ record_result_raw "https://ok.example" false 0 corruptStore
      = Except.ok (fun v => if v = "https://ok.example"
          then some ⟨some 2, some none⟩ else corruptStore v) := by
  exact ⟨rfl, rfl, rfl⟩

/-!  History series lemmas and claim C6.  -/

/-- Rows sorted ascending by their date column. -/
def sortedByDate (l : List (List Nat × Nat)) : Prop :=
  l.Pairwise (fun a b => lexLe a.1 b.1 = true)

theorem lexLe_refl (l : List Nat) : lexLe l l = true := by
  induction l with
  | nil => rfl
  | cons a as ih => simp [lexLe, ih]

theorem lexLe_total (a b : List Nat) : lexLe a b = true ∨ lexLe b a = true := by
  induction a generalizing b with
  | nil => left; rfl
  | cons x xs ih =>
    cases b with
    | nil => right; rfl
    | cons y ys =>
      by_cases hxy : x < y
      · left; simp [lexLe, hxy]
      · by_cases hyx : y < x
        · right; simp [lexLe, hyx]
        · have hx : ¬x < y := hxy
          rcases ih ys with h | h
          · left; simp [lexLe, hxy, hyx, h]
          · right; simp [lexLe, hxy, hyx, h]

theorem lexLe_trans {a b c : List Nat} (h1 : lexLe a b = true)
    (h2 : lexLe b c = true) : lexLe a c = true := by
  induction a generalizing b c with
  | nil => rfl
  | cons x xs ih =>
    cases b with
    | nil => simp [lexLe] at h1
    | cons y ys =>
      cases c with
      | nil => simp [lexLe] at h2
      | cons z zs =>
        simp only [lexLe] at h1 h2 ⊢
        by_cases hxy : x < y
        · by_cases hxz : x < z
          · simp [hxz]
          · by_cases hyz : y < z
            · omega
            · by_cases hzy : z < y
              · simp [hyz, hzy] at h2
              · omega
        · by_cases hyx : y < x
          · simp [hxy, hyx] at h1
          · have hxy2 : x = y := by omega
            subst hxy2
            simp [lt_irrefl] at h1
            by_cases hxz : x < z
            · simp [hxz]
            · by_cases hzx : z < x
              · simp [hxz, hzx] at h2
              · simp only [if_neg hxz, if_neg hzx] at h2 ⊢
                exact ih h1 h2

theorem insertRow_perm (r : List Nat × Nat) (l : List (List Nat × Nat)) :
    (insertRow r l).Perm (r :: l) := by
  induction l with
  | nil => exact List.Perm.refl _
  | cons x xs ih =>
    simp only [insertRow]
    by_cases h : lexLe x.1 r.1 = true
    · rw [if_pos h]
      exact (ih.cons x).trans (List.Perm.swap r x xs)
    · rw [if_neg h]

theorem insertRow_sorted (r : List Nat × Nat) (l : List (List Nat × Nat))
    (hs : sortedByDate l) : sortedByDate (insertRow r l) := by
  induction l with
  | nil => simp [insertRow, sortedByDate]
  | cons x xs ih =>
    simp only [insertRow]
    by_cases h : lexLe x.1 r.1 = true
    · rw [if_pos h]
      have hs2 : sortedByDate xs := (List.pairwise_cons.mp hs).2
      refine List.pairwise_cons.mpr ⟨?_, ih hs2⟩
      intro y hy
      rcases List.mem_cons.mp ((insertRow_perm r xs).mem_iff.mp hy) with hy | hy
      · subst hy; exact h
      · exact (List.pairwise_cons.mp hs).1 y hy
    · rw [if_neg h]
      have hr : lexLe r.1 x.1 = true := by
        rcases lexLe_total x.1 r.1 with h2 | h2
        · exact absurd h2 h
        · exact h2
      refine List.pairwise_cons.mpr ⟨?_, hs⟩
      intro y hy
      rcases List.mem_cons.mp hy with hy | hy
      · subst hy; exact hr
      · exact lexLe_trans hr ((List.pairwise_cons.mp hs).1 y hy)

theorem sortRows_aux_perm (l acc : List (List Nat × Nat)) :
    (l.foldl (fun a r => insertRow r a) acc).Perm (acc ++ l) := by
  induction l generalizing acc with
  | nil => simp
  | cons r rs ih =>
    simp only [List.foldl_cons]
    refine (ih (insertRow r acc)).trans ?_
    have h1 : ((insertRow r acc) ++ rs).Perm ((r :: acc) ++ rs) :=
      (insertRow_perm r acc).append_right rs
    refine h1.trans ?_
    simpa using List.perm_middle.symm

theorem sortRows_perm (l : List (List Nat × Nat)) : (sortRows l).Perm l := by
  simpa using sortRows_aux_perm l []

theorem sortRows_sorted (l : List (List Nat × Nat)) : sortedByDate (sortRows l) := by
  have haux : ∀ acc, sortedByDate acc →
      sortedByDate (l.foldl (fun a r => insertRow r a) acc) := by
    induction l with
    | nil => intro acc h; exact h
    | cons r rs ih =>
      intro acc h
      exact ih (insertRow r acc) (insertRow_sorted r acc h)
  exact haux [] (by simp [sortedByDate])

theorem updateRow_keys_of_mem {rows : List (List Nat × Nat)} {d : List Nat}
    (c : Nat) (h : d ∈ rows.map Prod.fst) :
    (updateRow rows d c).map Prod.fst = rows.map Prod.fst := by
  induction rows with
  | nil => simp at h
  | cons r rs ih =>
    simp only [updateRow]
    by_cases hr : r.1 = d
    · rw [if_pos hr]; simp [hr]
    · rw [if_neg hr]
      simp only [List.map_cons, List.cons.injEq, true_and]
      have hd : d ∈ rs.map Prod.fst := by
        rcases List.mem_map.mp h with ⟨x, hx, hfx⟩
        rcases List.mem_cons.mp hx with hx | hx
        · rw [hx] at hfx; exact absurd hfx hr
        · exact List.mem_map.mpr ⟨x, hx, hfx⟩
      exact ih hd

theorem updateRow_mem_self {rows : List (List Nat × Nat)} {d : List Nat}
    (c : Nat) (h : d ∈ rows.map Prod.fst) : (d, c) ∈ updateRow rows d c := by
  induction rows with
  | nil => simp at h
  | cons r rs ih =>
    simp only [updateRow]
    by_cases hr : r.1 = d
    · rw [if_pos hr]; exact List.mem_cons_self _ _
    · rw [if_neg hr]
      have hd : d ∈ rs.map Prod.fst := by
        rcases List.mem_map.mp h with ⟨x, hx, hfx⟩
        rcases List.mem_cons.mp hx with hx | hx
        · rw [hx] at hfx; exact absurd hfx hr
        · exact List.mem_map.mpr ⟨x, hx, hfx⟩
      exact List.mem_cons_of_mem r (ih hd)

theorem updateRow_val_eq {rows : List (List Nat × Nat)} {d : List Nat}
    {c v : Nat} (hnd : (rows.map Prod.fst).Nodup)
    (h : (d, v) ∈ updateRow rows d c) : v = c := by
  induction rows with
  | nil => simp [updateRow] at h; omega
  | cons r rs ih =>
    simp only [updateRow] at h
    have hnd2 : (rs.map Prod.fst).Nodup := (List.nodup_cons.mp hnd).2
    by_cases hr : r.1 = d
    · rw [if_pos hr] at h
      rcases List.mem_cons.mp h with h | h
      · simp at h; omega
      · exfalso
        have hmem : d ∈ rs.map Prod.fst := List.mem_map.mpr ⟨(d, v), h, rfl⟩
        have hnm : r.1 ∉ rs.map Prod.fst := (List.nodup_cons.mp hnd).1
        rw [hr] at hnm
        exact hnm hmem
    · rw [if_neg hr] at h
      rcases List.mem_cons.mp h with h | h
      · exact absurd (congrArg Prod.fst h).symm hr
      · exact ih hnd2 h

theorem updateRow_not_mem {rows : List (List Nat × Nat)} {d : List Nat}
    (c : Nat) (h : d ∉ rows.map Prod.fst) :
    updateRow rows d c = rows ++ [(d, c)] := by
  induction rows with
  | nil => rfl
  | cons r rs ih =>
    simp only [updateRow]
    have hr : r.1 ≠ d := by
      intro he
      exact h (List.mem_map.mpr ⟨r, List.mem_cons_self _ _, he⟩)
    rw [if_neg hr, ih (fun hm => h (List.mem_cons_of_mem _ hm))]
    rfl

/-- C6: writing a value for a date already present overwrites that row
without adding a duplicate (same multiset of dates, the date's row carries
the new value, rows sorted ascending); writing a 61st distinct date into a
full 60-row series trims to exactly 60 rows, excluding precisely the oldest
date, still sorted ascending. -/
theorem c6_history_overwrite_and_trim :
    (∀ (rows : List (List Nat × Nat)) (d : List Nat) (c : Nat),
      (rows.map Prod.fst).Nodup → rows.length ≤ 60 → d ∈ rows.map Prod.fst →
      ((log_count_to_history rows d c).map Prod.fst).Perm (rows.map Prod.fst)
      ∧ (d, c) ∈ log_count_to_history rows d c
      ∧ (∀ v, (d, v) ∈ log_count_to_history rows d c → v = c)
      ∧ sortedByDate (log_count_to_history rows d c))
    ∧ (∀ (rows : List (List Nat × Nat)) (d : List Nat) (c : Nat),
      (rows.map Prod.fst).Nodup → rows.length = 60 → d ∉ rows.map Prod.fst →
      (log_count_to_history rows d c).length = 60
      ∧ sortedByDate (log_count_to_history rows d c)
      ∧ ∃ m, m ∈ d :: rows.map Prod.fst
          ∧ (∀ x ∈ d :: rows.map Prod.fst, lexLe m x = true)
          ∧ m ∉ (log_count_to_history rows d c).map Prod.fst
          ∧ (∀ x ∈ d :: rows.map Prod.fst, x ≠ m →
              x ∈ (log_count_to_history rows d c).map Prod.fst)) := by
  constructor
  · intro rows d c hnd hlen hd
    have hkeys : (updateRow rows d c).map Prod.fst = rows.map Prod.fst :=
      updateRow_keys_of_mem c hd
    have hulen : (updateRow rows d c).length = rows.length := by
      have h2 := congrArg List.length hkeys
      simpa using h2
    have hsp : (sortRows (updateRow rows d c)).Perm (updateRow rows d c) :=
      sortRows_perm _
    have hslen : (sortRows (updateRow rows d c)).length = rows.length := by
      rw [hsp.length_eq, hulen]
    have hcond : ¬ (MAX_ENTRIES < (sortRows (updateRow rows d c)).length) := by
      rw [hslen]
      unfold MAX_ENTRIES
      omega
    have htrim : log_count_to_history rows d c = sortRows (updateRow rows d c) := by
      unfold log_count_to_history trim_history
      rw [if_neg hcond]
    refine ⟨?_, ?_, ?_, ?_⟩
    · rw [htrim]
      have h2 := hsp.map Prod.fst
      rw [hkeys] at h2
      exact h2
    · rw [htrim]
      exact hsp.mem_iff.mpr (updateRow_mem_self c hd)
    · intro v hv
      rw [htrim] at hv
      exact updateRow_val_eq hnd (hsp.mem_iff.mp hv)
    · rw [htrim]
      exact sortRows_sorted _
  · intro rows d c hnd hlen hd
    have hupd : updateRow rows d c = rows ++ [(d, c)] := updateRow_not_mem c hd
    have hukeys : (rows ++ [(d, c)]).map Prod.fst = rows.map Prod.fst ++ [d] := by
      simp
    have hperm : ((rows ++ [(d, c)]).map Prod.fst).Perm (d :: rows.map Prod.fst) := by
      rw [hukeys]
      exact List.perm_append_singleton _ _
    have hknd : ((rows ++ [(d, c)]).map Prod.fst).Nodup :=
      hperm.symm.nodup (List.nodup_cons.mpr ⟨hd, hnd⟩)
    have hsp : (sortRows (rows ++ [(d, c)])).Perm (rows ++ [(d, c)]) :=
      sortRows_perm _
    have hslen : (sortRows (rows ++ [(d, c)])).length = 61 := by
      rw [hsp.length_eq]
      simp [hlen]
    have hsorted : sortedByDate (sortRows (rows ++ [(d, c)])) := sortRows_sorted _
    have hsknd : ((sortRows (rows ++ [(d, c)])).map Prod.fst).Nodup :=
      ((hsp.map Prod.fst).symm.nodup hknd)
    obtain ⟨r0, tl, hcons⟩ : ∃ r0 tl, sortRows (rows ++ [(d, c)]) = r0 :: tl := by
      cases hsu : sortRows (rows ++ [(d, c)]) with
      | nil => rw [hsu] at hslen; simp at hslen
      | cons r0 tl => exact ⟨r0, tl, rfl⟩
    have hlen2 : (r0 :: tl).length = 61 := by rw [← hcons]; exact hslen
    have htlen : tl.length = 60 := by simpa using hlen2
    have hres : log_count_to_history rows d c = tl := by
      unfold log_count_to_history trim_history
      rw [hupd, hcons, hlen2]
      simp [MAX_ENTRIES]
    have hmem0 : r0 ∈ rows ++ [(d, c)] := by
      refine hsp.mem_iff.mp ?_
      rw [hcons]
      exact List.mem_cons_self _ _
    have hsortedc : sortedByDate (r0 :: tl) := by rw [← hcons]; exact hsorted
    refine ⟨?_, ?_, r0.1, ?_, ?_, ?_, ?_⟩
    · rw [hres]
      exact htlen
    · rw [hres]
      exact (List.pairwise_cons.mp hsortedc).2
    · exact hperm.mem_iff.mp (List.mem_map.mpr ⟨r0, hmem0, rfl⟩)
    · intro x hx
      have hxu : x ∈ (rows ++ [(d, c)]).map Prod.fst := hperm.mem_iff.mpr hx
      rcases List.mem_map.mp hxu with ⟨row, hrow, hfx⟩
      have hrow2 : row ∈ r0 :: tl := by
        rw [← hcons]
        exact hsp.mem_iff.mpr hrow
      rcases List.mem_cons.mp hrow2 with h2 | h2
      · subst h2
        rw [← hfx]
        exact lexLe_refl _
      · rw [← hfx]
        exact (List.pairwise_cons.mp hsortedc).1 row h2
    · rw [hres]
      have h2 : ((r0 :: tl).map Prod.fst).Nodup := by
        rw [← hcons]
        exact hsknd
      simp only [List.map_cons, List.nodup_cons] at h2
      exact h2.1
    · intro x hx hxne
      rw [hres]
      have hxu : x ∈ (rows ++ [(d, c)]).map Prod.fst := hperm.mem_iff.mpr hx
      have hxs : x ∈ ((r0 :: tl).map Prod.fst) := by
        rw [← hcons]
        exact ((hsp.map Prod.fst).mem_iff).mpr hxu
      simp only [List.map_cons, List.mem_cons] at hxs
      rcases hxs with h2 | h2
      · exact absurd h2 hxne
      · exact h2

/-- The 60 single-character dates 100..159 with value 0: a full history. -/
def rows60 : List (List Nat × Nat) := (List.range 60).map (fun i => ([100 + i], 0))

/-- C6 witness: overwriting date [100] in the full series keeps the row with
the new value; adding fresh date [200] trims back to 60 rows. -/
theorem c6_witness :
    ([100], 7) ∈ log_count_to_history rows60 [100] 7
    ∧ (log_count_to_history rows60 [200] 7).length = 60 := by
  refine ⟨(c6_history_overwrite_and_trim.1 rows60 [100] 7 ?_ ?_ ?_).2.1,
    (c6_history_overwrite_and_trim.2 rows60 [200] 7 ?_ ?_ ?_).1⟩ <;> decide

/-!  Aggregator lemmas and claims C5, C10.  -/

theorem record_result_other {url v : String} (hne : v ≠ url) (s : Bool)
    (today : Nat) (tr : Tracker) : (record_result url s today tr) v = tr v := by
  simp [record_result, hne]

theorem record_result_comm {u1 u2 : String} (hne : u1 ≠ u2) (s1 s2 : Bool)
    (t1 t2 : Nat) (tr : Tracker) :
    record_result u2 s2 t2 (record_result u1 s1 t1 tr)
      = record_result u1 s1 t1 (record_result u2 s2 t2 tr) := by
  funext v
  simp only [record_result]
  by_cases h2 : v = u2
  · by_cases h1 : v = u1
    · exact absurd (h1.symm.trans h2) hne
    · subst h2
      simp [h1, Ne.symm hne]
  · by_cases h1 : v = u1
    · subst h1
      simp [h2, hne]
    · simp [h1, h2]

theorem processOne_eq (today : Nat) (st : AggState) (r : String × List (List Nat)) :
    processOne today st r =
      ⟨record_result r.1 (decide (r.2 ≠ [])) today st.tracker,
       fun u => if u = r.1 then some (parse_hosts r.2).card else st.per u,
       st.merged ∪ parse_hosts r.2⟩ := by
  by_cases h : r.2 = []
  · simp [processOne, h, parse_hosts]
  · simp [processOne, h]

theorem processOne_comm (today : Nat) (st : AggState)
    (x y : String × List (List Nat)) (hne : x.1 ≠ y.1) :
    processOne today (processOne today st x) y
      = processOne today (processOne today st y) x := by
  rw [processOne_eq, processOne_eq, processOne_eq, processOne_eq]
  refine AggState.ext ?_ ?_ ?_
  · exact record_result_comm hne _ _ _ _ _
  · funext u
    by_cases h2 : u = y.1
    · subst h2
      simp [Ne.symm hne]
    · by_cases h1 : u = x.1
      · subst h1
        simp [hne, h2]
      · simp [h1, h2]
  · exact Finset.union_right_comm _ _ _

theorem aggregate_perm (today : Nat) :
    ∀ {l l2 : List (String × List (List Nat))}, l.Perm l2 →
      (l.map Prod.fst).Nodup → ∀ st, aggregate today l st = aggregate today l2 st := by
  intro l l2 hp
  induction hp with
  | nil => intro _ st; rfl
  | cons x hp ih =>
    intro hnd st
    simp only [aggregate, List.foldl_cons]
    exact ih (by simpa using (List.nodup_cons.mp (by simpa using hnd)).2) _
  | swap x y l =>
    intro hnd st
    simp only [aggregate, List.foldl_cons]
    have hne : y.1 ≠ x.1 := by
      simp only [List.map_cons, List.nodup_cons, List.mem_cons] at hnd
      exact fun h => hnd.1 (Or.inl h)
    rw [processOne_comm today st y x hne]
  | trans h1 h2 ih1 ih2 =>
    intro hnd st
    exact (ih1 hnd st).trans (ih2 ((h1.map Prod.fst).nodup hnd) st)

theorem aggregate_frame (today : Nat) (u : String) :
    ∀ (l : List (String × List (List Nat))) (st : AggState),
      (∀ r ∈ l, r.1 ≠ u) →
      (aggregate today l st).tracker u = st.tracker u
      ∧ (aggregate today l st).per u = st.per u := by
  intro l
  induction l with
  | nil => intro st _; exact ⟨rfl, rfl⟩
  | cons x rest ih =>
    intro st hne
    have hx : x.1 ≠ u := hne x (List.mem_cons_self _ _)
    have hrest : ∀ r ∈ rest, r.1 ≠ u := fun r hr => hne r (List.mem_cons_of_mem _ hr)
    have hstep := ih (processOne today st x) hrest
    simp only [aggregate, List.foldl_cons] at hstep ⊢
    refine ⟨hstep.1.trans ?_, hstep.2.trans ?_⟩
    · rw [processOne_eq]
      exact record_result_other (fun h => hx h.symm) _ _ _
    · rw [processOne_eq]
      simp only []
      rw [if_neg (fun h => hx (h.symm))]

theorem aggregate_per_of_mem (today : Nat) :
    ∀ (l : List (String × List (List Nat))) (st : AggState) (u : String)
      (t : List (List Nat)), (l.map Prod.fst).Nodup → (u, t) ∈ l →
      (aggregate today l st).per u = some (parse_hosts t).card := by
  intro l
  induction l with
  | nil => intro st u t _ hm; simp at hm
  | cons x rest ih =>
    intro st u t hnd hm
    rw [List.map_cons, List.nodup_cons] at hnd
    have hnd2 : (rest.map Prod.fst).Nodup := hnd.2
    rcases List.mem_cons.mp hm with hm | hm
    · subst hm
      have hnotin : ∀ r ∈ rest, r.1 ≠ u := by
        intro r hr he
        exact hnd.1 (List.mem_map.mpr ⟨r, hr, he⟩)
      have hframe := (aggregate_frame today u rest (processOne today st (u, t)) hnotin).2
      simp only [aggregate, List.foldl_cons] at hframe ⊢
      rw [hframe, processOne_eq]
      simp
    · simp only [aggregate, List.foldl_cons]
      exact ih (processOne today st x) u t hnd2 hm

/-- C5: processing a fixed set of per-source fetch results in any completion
order yields the same state (merged set, per-source map, tracker), hence the
same `total_unique`; and each source's `per_source` value is the entry count
parsed from its own text (`parse_hosts` of empty text is empty, so empty
results score 0), independent of overlap with other sources. -/
theorem c5_aggregation_order_independent (today : Nat) (st : AggState)
    (l l2 : List (String × List (List Nat))) (hp : l.Perm l2)
    (hnd : (l.map Prod.fst).Nodup) :
    aggregate today l st = aggregate today l2 st
    ∧ (aggregate today l st).merged.card = (aggregate today l2 st).merged.card
    ∧ (∀ u t, (u, t) ∈ l →
        (aggregate today l st).per u = some (parse_hosts t).card) := by
  refine ⟨aggregate_perm today hp hnd st, ?_, ?_⟩
  · rw [aggregate_perm today hp hnd st]
  · intro u t hm
    exact aggregate_per_of_mem today l st u t hnd hm

/-- C5 witness: two completion orders of the same two results agree, and the
source with one hosts line scores one entry. -/
theorem c5_witness :
    aggregate 0 [("a", [codes "0.0.0.0 x.com"]), ("b", [])]
        ⟨fun _ => none, fun _ => none, ∅⟩
      = aggregate 0 [("b", []), ("a", [codes "0.0.0.0 x.com"])]
        ⟨fun _ => none, fun _ => none, ∅⟩
    ∧ (aggregate 0 [("a", [codes "0.0.0.0 x.com"]), ("b", [])]
        ⟨fun _ => none, fun _ => none, ∅⟩).per "a" = some 1 := by
  have h := c5_aggregation_order_independent 0 ⟨fun _ => none, fun _ => none, ∅⟩
    [("a", [codes "0.0.0.0 x.com"]), ("b", [])]
    [("b", []), ("a", [codes "0.0.0.0 x.com"])]
    (List.Perm.swap ("b", []) ("a", [codes "0.0.0.0 x.com"]) [])
    (by decide)
  refine ⟨h.1, ?_⟩
  have h2 := h.2.2 "a" [codes "0.0.0.0 x.com"] (List.mem_cons_self _ _)
  rw [h2]
  decide

theorem initPer_not_mem (today : Nat) (tr0 : Tracker) (u : String) :
    ∀ (urls : List String) (p : String → Option Nat), u ∉ urls →
      (urls.foldl
        (fun p v =>
          if should_skip_url v today tr0 then
            fun w => if w = v then some 0 else p w
          else p) p) u = p u := by
  intro urls
  induction urls with
  | nil => intro p _; rfl
  | cons v rest ih =>
    intro p hu
    have hvu : u ≠ v := fun h => hu (h ▸ List.mem_cons_self _ _)
    have hur : u ∉ rest := fun h => hu (List.mem_cons_of_mem _ h)
    simp only [List.foldl_cons]
    rw [ih _ hur]
    by_cases hs : should_skip_url v today tr0 = true
    · rw [if_pos hs, if_neg hvu]
    · rw [if_neg hs]

theorem initPer_skip (today : Nat) (tr0 : Tracker) (u : String)
    (hskip : should_skip_url u today tr0 = true) :
    ∀ (urls : List String) (p : String → Option Nat), u ∈ urls →
      (urls.foldl
        (fun p v =>
          if should_skip_url v today tr0 then
            fun w => if w = v then some 0 else p w
          else p) p) u = some 0 := by
  intro urls
  induction urls with
  | nil => intro p hm; simp at hm
  | cons v rest ih =>
    intro p hm
    simp only [List.foldl_cons]
    by_cases hur : u ∈ rest
    · exact ih _ hur
    · have hv : u = v := by
        rcases List.mem_cons.mp hm with h | h
        · exact h
        · exact absurd h hur
      subst hv
      rw [initPer_not_mem today tr0 u rest _ hur, if_pos hskip, if_pos rfl]

/-- C10: a URL the tracker says to skip gets no `record_result` call in the
whole run, so its health record is untouched, and its `per_source` value is
0; `should_skip_url` itself is a pure query and mutates nothing. -/
theorem c10_skip_leaves_record_untouched (urls : List String)
    (fetch : String → List (List Nat)) (today : Nat) (tr0 : Tracker)
    (results : List (String × List (List Nat))) (u : String)
    (hskip : should_skip_url u today tr0 = true) (hmem : u ∈ urls)
    (hperm : results.Perm ((fetchList urls today tr0).map (fun v => (v, fetch v)))) :
    (runMain urls today tr0 results).tracker u = tr0 u
    ∧ (runMain urls today tr0 results).per u = some 0 := by
  have hne : ∀ r ∈ results, r.1 ≠ u := by
    intro r hr
    have hr2 : r ∈ (fetchList urls today tr0).map (fun v => (v, fetch v)) :=
      hperm.mem_iff.mp hr
    rcases List.mem_map.mp hr2 with ⟨v, hv, hveq⟩
    have hnskip : ¬ should_skip_url v today tr0 = true := by
      have := (List.mem_filter.mp hv).2
      simpa using this
    intro heq
    rw [← hveq] at heq
    simp only at heq
    exact hnskip (heq ▸ hskip)
  have hframe := aggregate_frame today u results ⟨tr0, initPer urls today tr0, ∅⟩ hne
  unfold runMain
  refine ⟨hframe.1, hframe.2.trans ?_⟩
  exact initPer_skip today tr0 u hskip urls _ hmem

/-- The blocked-source tracker of the C10 witness. -/
def trSkip : Tracker :=
  fun v => if v = "s" then some ⟨3, some (DateStr.valid 100)⟩ else none

/-- C10 witness: with "s" blocked until day 100, a run on day 10 leaves its
record alone and reports 0 entries for it. -/
theorem c10_witness :
    (runMain ["s", "a"] 10 trSkip
        ((fetchList ["s", "a"] 10 trSkip).map (fun v => (v, [])))).tracker "s"
      = trSkip "s"
    ∧ (runMain ["s", "a"] 10 trSkip
        ((fetchList ["s", "a"] 10 trSkip).map (fun v => (v, [])))).per "s"
      = some 0 :=
  c10_skip_leaves_record_untouched ["s", "a"] (fun _ => []) 10 trSkip _ "s"
    (by decide) (by decide) (List.Perm.refl _)

/-!  Normalizer lemmas and claims C3, C4.  -/

theorem pyLower_idem (n : Nat) : pyLower (pyLower n) = pyLower n := by
  simp only [pyLower]
  by_cases h : 65 ≤ n ∧ n ≤ 90
  · rw [if_pos h, if_neg (by omega)]
  · rw [if_neg h, if_neg h]

theorem toLowerL_idem (l : List Nat) : toLowerL (toLowerL l) = toLowerL l := by
  simp only [toLowerL, List.map_map]
  congr 1
  funext n
  exact pyLower_idem n

theorem lowerLetter_pyLower (n : Nat) : isLowerLetter (pyLower n) = isLetterCI n := by
  unfold pyLower
  split <;> rename_i h <;>
    exact decide_eq_decide.mpr (by omega)

theorem classLower_pyLower (n : Nat) : isClassLower (pyLower n) = isClassCI n := by
  unfold pyLower
  split <;> rename_i h <;>
    exact decide_eq_decide.mpr (by omega)

theorem pyLower_eq_46 (n : Nat) : pyLower n = 46 ↔ n = 46 := by
  simp only [pyLower]
  by_cases h : 65 ≤ n ∧ n ≤ 90
  · rw [if_pos h]
    omega
  · rw [if_neg h]

theorem domainGrammar_lower (l : List Nat) :
    isDomainGrammar (toLowerL l) = isDomainGrammarCI l := by
  unfold isDomainGrammar isDomainGrammarCI domainCheck toLowerL
  rw [← List.map_reverse, List.takeWhile_map, List.dropWhile_map, List.length_map]
  have hc1 : (isLowerLetter ∘ pyLower) = isLetterCI := funext lowerLetter_pyLower
  rw [hc1]
  cases hrest : l.reverse.dropWhile isLetterCI with
  | nil => simp
  | cons c front =>
    simp only [List.map_cons]
    have h46 : decide (pyLower c = 46) = decide (c = 46) :=
      decide_eq_decide.mpr (pyLower_eq_46 c)
    have hnil : decide (List.map pyLower front ≠ []) = decide (front ≠ []) :=
      decide_eq_decide.mpr (by simp)
    have hall : (List.map pyLower front).all isClassLower = front.all isClassCI := by
      rw [List.all_map]
      congr 1
      exact funext classLower_pyLower
    rw [h46, hnil, hall]

theorem tryPipePipe_eq_some {line e : List Nat} (h : tryPipePipe line = some e) :
    e = toLowerL (trim (beforeCaret (line.drop 2))) := by
  unfold tryPipePipe at h
  split_ifs at h
  · exact (Option.some_inj.mp h).symm

theorem tryPipe_eq_some {line e : List Nat} (h : tryPipe line = some e) :
    e = toLowerL (trim (beforeCaret (stripScheme (stripPipes line)))) := by
  unfold tryPipe at h
  split_ifs at h
  · exact (Option.some_inj.mp h).symm

theorem tryPlain_eq_some {line e : List Nat} (h : tryPlain line = some e) :
    e = toLowerL line ∧ isDomainGrammarCI line = true := by
  unfold tryPlain at h
  split_ifs at h with hc
  · exact ⟨(Option.some_inj.mp h).symm, hc.2.2.2.2.2⟩

theorem norm_adblock_lower {line e : List Nat}
    (h : normalize_adblock_line line = some e) : toLowerL e = e := by
  unfold normalize_adblock_line at h
  cases h1 : tryPipePipe line with
  | some x =>
    rw [h1] at h
    simp only [Option.some_inj] at h
    rw [← h, tryPipePipe_eq_some h1]
    exact toLowerL_idem _
  | none =>
    rw [h1] at h
    cases h2 : tryPipe line with
    | some x =>
      rw [h2] at h
      simp only [Option.some_inj] at h
      rw [← h, tryPipe_eq_some h2]
      exact toLowerL_idem _
    | none =>
      rw [h2] at h
      rw [(tryPlain_eq_some h).1]
      exact toLowerL_idem _

theorem normalizeLine_lower {raw e : List Nat}
    (h : normalizeLine raw = some e) : toLowerL e = e := by
  unfold normalizeLine at h
  by_cases h1 : trim raw = [] ∨ (trim raw).head? = some 35
  · rw [if_pos h1] at h
    simp at h
  · rw [if_neg h1] at h
    by_cases h2 : 2 ≤ (splitWS (trim raw)).length ∧
        ((splitWS (trim raw)).head? = some (codes "0.0.0.0") ∨
          (splitWS (trim raw)).head? = some (codes "127.0.0.1"))
    · rw [if_pos h2] at h
      rw [← Option.some_inj.mp h]
      exact toLowerL_idem _
    · rw [if_neg h2] at h
      by_cases h3 : (splitWS (trim raw)).length = 1
      · rw [if_pos h3] at h
        cases h4 : normalize_adblock_line ((splitWS (trim raw)).getD 0 []) with
        | some c =>
          rw [h4] at h
          have h5 : some c = some e := h
          rw [← Option.some_inj.mp h5]
          exact norm_adblock_lower h4
        | none =>
          rw [h4] at h
          have h5 : normalize_adblock_line (trim raw) = some e := h
          exact norm_adblock_lower h5
      · rw [if_neg h3] at h
        have h5 : normalize_adblock_line (trim raw) = some e := h
        exact norm_adblock_lower h5

theorem parse_hosts_mem_aux (e : List Nat) :
    ∀ (lines : List (List Nat)) (acc : Finset (List Nat)),
      e ∈ lines.foldl
        (fun acc l =>
          match normalizeLine l with
          | some x => insert x acc
          | none => acc) acc →
      e ∈ acc ∨ ∃ l ∈ lines, normalizeLine l = some e := by
  intro lines
  induction lines with
  | nil => intro acc h; exact Or.inl h
  | cons l ls ih =>
    intro acc h
    simp only [List.foldl_cons] at h
    rcases ih _ h with h2 | h2
    · cases hn : normalizeLine l with
      | some x =>
        rw [hn] at h2
        rcases Finset.mem_insert.mp h2 with h3 | h3
        · refine Or.inr ⟨l, List.mem_cons_self _ _, ?_⟩
          rw [hn, h3]
        · exact Or.inl h3
      | none =>
        rw [hn] at h2
        exact Or.inl h2
    · rcases h2 with ⟨l2, hl2, hn2⟩
      exact Or.inr ⟨l2, List.mem_cons_of_mem _ hl2, hn2⟩

theorem parse_hosts_mem {lines : List (List Nat)} {e : List Nat}
    (h : e ∈ parse_hosts lines) : ∃ l ∈ lines, normalizeLine l = some e := by
  rcases parse_hosts_mem_aux e lines ∅ h with h2 | h2
  · simp at h2
  · exact h2

/-- C3 counterexample to the claim as stated: the hosts-style line
`0.0.0.0 A` puts the entry `a` into the set, and `a` does not match the
domain grammar `label(.label)+` with a 2-letter final label (it is not even
of the required shape).  Hosts-style tokens are added without validation. -/
theorem c3_counterexample :
    (codes "a") ∈ parse_hosts [codes "0.0.0.0 A"]
    ∧ isDomainGrammar (codes "a") = false := by
  constructor
  · decide
  · decide

/-- C3 as amended: every element of the `parse_hosts` set is lowercased
(fixed by `str.lower`), and the entries accepted by the plain-domain branch
do match the canonical lowercase domain grammar; hosts-style and adblock
entries carry no grammar guarantee. -/
theorem c3_entries_lowercased_plain_validated :
    (∀ (lines : List (List Nat)) (e : List Nat),
      e ∈ parse_hosts lines → toLowerL e = e)
    ∧ (∀ (line e : List Nat), tryPlain line = some e → isDomainGrammar e = true) := by
  constructor
  · intro lines e he
    rcases parse_hosts_mem he with ⟨l, _, hn⟩
    exact normalizeLine_lower hn
  · intro line e htp
    obtain ⟨he, hci⟩ := tryPlain_eq_some htp
    rw [he, domainGrammar_lower]
    exact hci

/-- C3 witness: a hosts entry written in capitals comes out lowercased, and
a plain-line entry satisfies the lowercase grammar. -/
theorem c3_witness :
    toLowerL (codes "ads.example.com") = codes "ads.example.com"
    ∧ isDomainGrammar (codes "plain.example.com") = true := by
  refine ⟨c3_entries_lowercased_plain_validated.1
      [codes "0.0.0.0 ADS.example.com"] (codes "ads.example.com") ?_,
    c3_entries_lowercased_plain_validated.2
      (codes "plain.example.com") (codes "plain.example.com") ?_⟩
  · decide
  · decide

theorem classLower_spec {c : Nat} (h : isClassLower c = true) :
    (97 ≤ c ∧ c ≤ 122) ∨ (48 ≤ c ∧ c ≤ 57) ∨ c = 46 ∨ c = 45 := by
  unfold isClassLower at h
  exact of_decide_eq_true h

theorem classLower_not_space {c : Nat} (h : isClassLower c = true) :
    isSpaceCode c = false := by
  have h2 := classLower_spec h
  unfold isSpaceCode
  exact decide_eq_false (by omega)

theorem classLower_ne {c : Nat} (h : isClassLower c = true) :
    c ≠ 35 ∧ c ≠ 42 ∧ c ≠ 47 ∧ c ≠ 94 ∧ c ≠ 124 := by
  have h2 := classLower_spec h
  omega

theorem grammar_chars {e : List Nat} (h : isDomainGrammar e = true) :
    e ≠ [] ∧ ∀ c ∈ e, isClassLower c = true := by
  unfold isDomainGrammar domainCheck at h
  rw [Bool.and_eq_true] at h
  rcases h with ⟨hlen, hrest⟩
  cases hdrop : e.reverse.dropWhile isLowerLetter with
  | nil =>
    rw [hdrop] at hrest
    simp at hrest
  | cons c front =>
    rw [hdrop] at hrest
    rw [Bool.and_eq_true, Bool.and_eq_true] at hrest
    rcases hrest with ⟨⟨hc46, hfne⟩, hall⟩
    have hc46p : c = 46 := of_decide_eq_true hc46
    have hsplit : e.reverse.takeWhile isLowerLetter ++ (c :: front) = e.reverse := by
      rw [← hdrop]
      exact List.takeWhile_append_dropWhile _ _
    constructor
    · intro he
      rw [he] at hsplit
      simp at hsplit
    · intro x hx
      have hxr : x ∈ e.reverse := List.mem_reverse.mpr hx
      rw [← hsplit] at hxr
      rcases List.mem_append.mp hxr with hx2 | hx2
      · have hlet := List.mem_takeWhile_imp hx2
        unfold isLowerLetter at hlet
        unfold isClassLower
        exact decide_eq_true (Or.inl (of_decide_eq_true hlet))
      · rcases List.mem_cons.mp hx2 with hx3 | hx3
        · subst hx3
          rw [hc46p]
          decide
        · have := List.all_eq_true.mp hall x hx3
          exact this

theorem dropWhile_eq_self {p : Nat → Bool} {l : List Nat}
    (h : ∀ c ∈ l, p c = false) : l.dropWhile p = l := by
  cases l with
  | nil => rfl
  | cons a as =>
    rw [List.dropWhile_cons, h a (List.mem_cons_self _ _)]
    simp

theorem trim_eq_self {l : List Nat} (h : ∀ c ∈ l, isSpaceCode c = false) :
    trim l = l := by
  unfold trim
  rw [dropWhile_eq_self h,
    dropWhile_eq_self (fun c hc => h c (List.mem_reverse.mp hc)),
    List.reverse_reverse]

theorem splitWSAux_cons_nospace {c : Nat} (hc : isSpaceCode c = false)
    (cur cs : List Nat) : splitWSAux cur (c :: cs) = splitWSAux (c :: cur) cs := by
  simp [splitWSAux, hc]

theorem splitWSAux_nospace :
    ∀ (l : List Nat), l ≠ [] → (∀ c ∈ l, isSpaceCode c = false) →
      ∀ cur, splitWSAux cur l = [cur.reverse ++ l] := by
  intro l
  induction l with
  | nil => intro h _ _; exact absurd rfl h
  | cons c cs ih =>
    intro _ h cur
    have hc : isSpaceCode c = false := h c (List.mem_cons_self _ _)
    cases cs with
    | nil => simp [splitWSAux, hc]
    | cons d ds =>
      have hcs : d :: ds ≠ [] := by simp
      have hh : ∀ x ∈ d :: ds, isSpaceCode x = false :=
        fun x hx => h x (List.mem_cons_of_mem _ hx)
      rw [splitWSAux_cons_nospace hc, ih hcs hh (c :: cur)]
      simp

theorem splitWS_single {l : List Nat} (hne : l ≠ [])
    (h : ∀ c ∈ l, isSpaceCode c = false) : splitWS l = [l] := by
  unfold splitWS
  rw [splitWSAux_nospace l hne h []]
  simp

/-- C4 counterexample to the claim as stated: the hosts-style line
`0.0.0.0 foo` normalizes to the entry `foo`, but feeding `foo` back in as a
plain line yields nothing (it fails the domain regex), not `foo` again. -/
theorem c4_counterexample :
    normalizeLine (codes "0.0.0.0 foo") = some (codes "foo")
    ∧ normalizeLine (codes "foo") = none := by
  constructor
  · decide
  · decide

/-- C4 as amended: normalization is idempotent on every produced entry that
matches the canonical domain grammar — in particular on every entry of the
plain-domain branch — but not on arbitrary hosts-style or adblock-derived
entries. -/
theorem c4_normalize_idempotent_on_domains (raw e : List Nat)
    (h1 : normalizeLine raw = some e) (h2 : isDomainGrammar e = true) :
    normalizeLine e = some e := by
  have hlow : toLowerL e = e := normalizeLine_lower h1
  obtain ⟨hne, hcls⟩ := grammar_chars h2
  have hnospace : ∀ c ∈ e, isSpaceCode c = false :=
    fun c hc => classLower_not_space (hcls c hc)
  have htrim : trim e = e := trim_eq_self hnospace
  have hsplit : splitWS e = [e] := splitWS_single hne hnospace
  obtain ⟨c0, e0, hce⟩ : ∃ c0 e0, e = c0 :: e0 := by
    cases e with
    | nil => exact absurd rfl hne
    | cons a b => exact ⟨a, b, rfl⟩
  have hc0 : isClassLower c0 = true := by
    refine hcls c0 ?_
    rw [hce]
    exact List.mem_cons_self _ _
  have hCI : isDomainGrammarCI e = true := by
    have hdl := domainGrammar_lower e
    rw [hlow] at hdl
    rw [← hdl]
    exact h2
  have hpp : tryPipePipe e = none := by
    unfold tryPipePipe
    rw [if_neg]
    intro hcontra
    rw [hce] at hcontra
    simp [List.take] at hcontra
    exact (classLower_ne hc0).2.2.2.2 hcontra.1
  have hp : tryPipe e = none := by
    unfold tryPipe
    rw [if_neg]
    intro hcontra
    rw [hce] at hcontra
    simp [List.take] at hcontra
    exact (classLower_ne hc0).2.2.2.2 hcontra
  have hplain : tryPlain e = some e := by
    unfold tryPlain
    have h42 : 42 ∉ e := fun hm => (classLower_ne (hcls 42 hm)).2.1 rfl
    have h47 : 47 ∉ e := fun hm => (classLower_ne (hcls 47 hm)).2.2.1 rfl
    have h124 : 124 ∉ e := fun hm => (classLower_ne (hcls 124 hm)).2.2.2.2 rfl
    have h94 : 94 ∉ e := fun hm => (classLower_ne (hcls 94 hm)).2.2.2.1 rfl
    rw [if_pos ⟨hne, h42, h47, h124, h94, hCI⟩, hlow]
  have hnab : normalize_adblock_line e = some e := by
    unfold normalize_adblock_line
    rw [hpp, hp]
    exact hplain
  have hcond1 : ¬(trim e = [] ∨ (trim e).head? = some 35) := by
    rw [htrim]
    rintro (hx | hx)
    · exact hne hx
    · rw [hce] at hx
      simp at hx
      exact (classLower_ne hc0).1 hx
  have hcond2 : ¬(2 ≤ (splitWS (trim e)).length ∧
      ((splitWS (trim e)).head? = some (codes "0.0.0.0") ∨
        (splitWS (trim e)).head? = some (codes "127.0.0.1"))) := by
    rw [htrim, hsplit]
    intro hx
    simp at hx
  unfold normalizeLine
  rw [if_neg hcond1, if_neg hcond2, htrim, hsplit]
  have hfin : (if ([e] : List (List Nat)).length = 1
      then normalize_adblock_line (([e] : List (List Nat)).getD 0 [])
      else none) = some e := by
    simp only [List.length_singleton, if_pos rfl, List.getD]
    simpa using hnab
  rw [hfin]

/-- C4 witness: the adblock rule `||plain.example.com^` produces the entry
`plain.example.com`, which matches the grammar and re-normalizes to itself. -/
theorem c4_witness :
    normalizeLine (codes "plain.example.com") = some (codes "plain.example.com") :=
  c4_normalize_idempotent_on_domains (codes "||plain.example.com^")
    (codes "plain.example.com") (by decide) (by decide)

/-!  IPv4 extraction lemmas and claim C9.  -/

theorem specOctet_one {a : Nat} (h1 : 48 ≤ a) (h2 : a ≤ 57) : specOctet [a] := by
  refine ⟨by simp, ?_, ?_⟩
  · intro d hd
    rcases List.mem_cons.mp hd with h | h
    · subst h
      exact decide_eq_true (by omega)
    · simp at h
  · simp [List.foldl]
    omega

theorem specOctet_two {a b : Nat} (h1 : 49 ≤ a) (h2 : a ≤ 57) (h3 : 48 ≤ b)
    (h4 : b ≤ 57) : specOctet [a, b] := by
  refine ⟨by simp, ?_, ?_⟩
  · intro d hd
    rcases List.mem_cons.mp hd with h | h
    · subst h
      exact decide_eq_true (by omega)
    rcases List.mem_cons.mp h with h | h
    · subst h
      exact decide_eq_true (by omega)
    · simp at h
  · simp [List.foldl]
    omega

theorem specOctet_three {a b c : Nat} (h1 : 48 ≤ a) (h2 : a ≤ 57) (h3 : 48 ≤ b)
    (h4 : b ≤ 57) (h5 : 48 ≤ c) (h6 : c ≤ 57)
    (hval : ((a - 48) * 10 + (b - 48)) * 10 + (c - 48) ≤ 255) :
    specOctet [a, b, c] := by
  refine ⟨by simp, ?_, ?_⟩
  · intro d hd
    rcases List.mem_cons.mp hd with h | h
    · subst h
      exact decide_eq_true (by omega)
    rcases List.mem_cons.mp h with h | h
    · subst h
      exact decide_eq_true (by omega)
    rcases List.mem_cons.mp h with h | h
    · subst h
      exact decide_eq_true (by omega)
    · simp at h
  · simp [List.foldl]
    omega

theorem digit_spec {d : Nat} (h : isDigitCode d = true) : 48 ≤ d ∧ d ≤ 57 := by
  unfold isDigitCode at h
  exact of_decide_eq_true h

theorem mem_ite_singleton {P : Prop} {inst : Decidable P} {x y : List Nat × List Nat}
    (h : y ∈ (@ite _ P inst [x] ([] : List (List Nat × List Nat)))) :
    P ∧ y = x := by
  by_cases hp : P
  · rw [if_pos hp] at h
    exact ⟨hp, List.mem_singleton.mp h⟩
  · rw [if_neg hp] at h
    simp at h

theorem octetSplits_sound {cs o r : List Nat}
    (h : (o, r) ∈ octetSplits cs) : cs = o ++ r ∧ specOctet o := by
  cases cs with
  | nil => simp [octetSplits] at h
  | cons a t1 =>
    cases t1 with
    | nil =>
      simp only [octetSplits, List.nil_append] at h
      obtain ⟨hp, hyx⟩ := mem_ite_singleton h
      have ho : o = [a] := congrArg Prod.fst hyx
      have hr : r = [] := congrArg Prod.snd hyx
      subst ho
      subst hr
      obtain ⟨h1, h2⟩ := digit_spec hp
      exact ⟨by simp, specOctet_one h1 h2⟩
    | cons b t2 =>
      cases t2 with
      | nil =>
        simp only [octetSplits, List.nil_append] at h
        rcases List.mem_append.mp h with h | h
        · obtain ⟨hp, hyx⟩ := mem_ite_singleton h
          have ho : o = [a, b] := congrArg Prod.fst hyx
          have hr : r = [] := congrArg Prod.snd hyx
          subst ho
          subst hr
          obtain ⟨hb1, hb2⟩ := digit_spec hp.2
          exact ⟨by simp, specOctet_two hp.1.1 hp.1.2 hb1 hb2⟩
        · obtain ⟨hp, hyx⟩ := mem_ite_singleton h
          have ho : o = [a] := congrArg Prod.fst hyx
          have hr : r = [b] := congrArg Prod.snd hyx
          subst ho
          subst hr
          obtain ⟨h1, h2⟩ := digit_spec hp
          exact ⟨by simp, specOctet_one h1 h2⟩
      | cons c rest =>
        simp only [octetSplits] at h
        rcases List.mem_append.mp h with h | h
        · rcases List.mem_append.mp h with h | h
          · rcases List.mem_append.mp h with h | h
            · rcases List.mem_append.mp h with h | h
              · obtain ⟨hp, hyx⟩ := mem_ite_singleton h
                have ho : o = [a, b, c] := congrArg Prod.fst hyx
                have hr : r = rest := congrArg Prod.snd hyx
                subst ho
                subst hr
                obtain ⟨ha, hb, hc⟩ := hp
                subst ha
                subst hb
                refine ⟨by simp, specOctet_three (by omega) (by omega) (by omega)
                  (by omega) (by omega) (by omega) (by omega)⟩
              · obtain ⟨hp, hyx⟩ := mem_ite_singleton h
                have ho : o = [a, b, c] := congrArg Prod.fst hyx
                have hr : r = rest := congrArg Prod.snd hyx
                subst ho
                subst hr
                obtain ⟨ha, hb, hc⟩ := hp
                subst ha
                obtain ⟨hc1, hc2⟩ := digit_spec hc
                refine ⟨by simp, specOctet_three (by omega) (by omega) (by omega)
                  (by omega) (by omega) (by omega) (by omega)⟩
            · obtain ⟨hp, hyx⟩ := mem_ite_singleton h
              have ho : o = [a, b, c] := congrArg Prod.fst hyx
              have hr : r = rest := congrArg Prod.snd hyx
              subst ho
              subst hr
              obtain ⟨ha, hb, hc⟩ := hp
              subst ha
              obtain ⟨hb1, hb2⟩ := digit_spec hb
              obtain ⟨hc1, hc2⟩ := digit_spec hc
              refine ⟨by simp, specOctet_three (by omega) (by omega) (by omega)
                (by omega) (by omega) (by omega) (by omega)⟩
          · obtain ⟨hp, hyx⟩ := mem_ite_singleton h
            have ho : o = [a, b] := congrArg Prod.fst hyx
            have hr : r = c :: rest := congrArg Prod.snd hyx
            subst ho
            subst hr
            obtain ⟨hb1, hb2⟩ := digit_spec hp.2
            exact ⟨by simp, specOctet_two hp.1.1 hp.1.2 hb1 hb2⟩
        · obtain ⟨hp, hyx⟩ := mem_ite_singleton h
          have ho : o = [a] := congrArg Prod.fst hyx
          have hr : r = b :: c :: rest := congrArg Prod.snd hyx
          subst ho
          subst hr
          obtain ⟨h1, h2⟩ := digit_spec hp
          exact ⟨by simp, specOctet_one h1 h2⟩

theorem rightBoundary_spec {r : List Nat} (h : rightBoundary r = true) :
    ∀ q, r.head? = some q → isWordCode q = false := by
  intro q hq
  cases r with
  | nil => simp at hq
  | cons a t =>
    simp only [List.head?_cons, Option.some_inj] at hq
    subst hq
    unfold rightBoundary at h
    simpa using h

theorem matchOcts_sound : ∀ (n : Nat) {cs m rest : List Nat},
    matchOcts (n + 1) cs = some (m, rest) →
    cs = m ++ rest ∧ OctChain (n + 1) m ∧ rightBoundary rest = true := by
  intro n
  induction n with
  | zero =>
    intro cs m rest h
    have h2 : (octetSplits cs).findSome?
        (fun p => if rightBoundary p.2 then some p else none) = some (m, rest) := h
    rcases List.findSome?_eq_some_iff.mp h2 with ⟨l1, p, l2, hsplit, hp, _⟩
    obtain ⟨po, pr⟩ := p
    by_cases hb : rightBoundary pr = true
    · rw [if_pos hb] at hp
      have hpe := Option.some_inj.mp hp
      have hpo : po = m := congrArg Prod.fst hpe
      have hpr : pr = rest := congrArg Prod.snd hpe
      subst hpo
      subst hpr
      have hmem : (po, pr) ∈ octetSplits cs := by
        rw [hsplit]
        exact List.mem_append.mpr (Or.inr (List.mem_cons_self _ _))
      obtain ⟨hcs, hoct⟩ := octetSplits_sound hmem
      exact ⟨hcs, hoct, hb⟩
    · rw [if_neg hb] at hp
      simp at hp
  | succ k ih =>
    intro cs m rest h
    have h2 : (octetSplits cs).findSome?
        (fun p =>
          match p.2 with
          | c :: r2 =>
            if c = 46 then
              match matchOcts (k + 1) r2 with
              | some (m2, rest2) => some (p.1 ++ c :: m2, rest2)
              | none => none
            else none
          | [] => none) = some (m, rest) := h
    rcases List.findSome?_eq_some_iff.mp h2 with ⟨l1, p, l2, hsplit, hp, _⟩
    obtain ⟨po, pr⟩ := p
    have hmem : (po, pr) ∈ octetSplits cs := by
      rw [hsplit]
      exact List.mem_append.mpr (Or.inr (List.mem_cons_self _ _))
    obtain ⟨hcs, hoct⟩ := octetSplits_sound hmem
    cases pr with
    | nil => simp at hp
    | cons c r2 =>
      have hp2 : (if c = 46 then
          (match matchOcts (k + 1) r2 with
           | some (m2, rest2) => some (po ++ c :: m2, rest2)
           | none => none)
          else none) = some (m, rest) := hp
      by_cases hc : c = 46
      · rw [if_pos hc] at hp2
        cases hrec : matchOcts (k + 1) r2 with
        | none =>
          rw [hrec] at hp2
          simp at hp2
        | some q =>
          obtain ⟨m2, rest2⟩ := q
          rw [hrec] at hp2
          have hp3 : some (po ++ c :: m2, rest2) = some (m, rest) := hp2
          have hm : po ++ c :: m2 = m := congrArg Prod.fst (Option.some_inj.mp hp3)
          have hrst : rest2 = rest := congrArg Prod.snd (Option.some_inj.mp hp3)
          obtain ⟨hcs2, hchain2, hrb2⟩ := ih hrec
          subst hm
          subst hrst
          subst hc
          refine ⟨?_, ?_, hrb2⟩
          · rw [hcs, hcs2]
            simp
          · exact ⟨po, m2, rfl, hoct, hchain2⟩
      · rw [if_neg hc] at hp2
        simp at hp2

theorem octChain_four {m : List Nat} (h : OctChain 4 m) : IPv4Shape m := by
  have h1 : ∃ o m2, m = o ++ 46 :: m2 ∧ specOctet o ∧ OctChain 3 m2 := h
  obtain ⟨o1, m2, he1, ho1, h2⟩ := h1
  have h2b : ∃ o m3, m2 = o ++ 46 :: m3 ∧ specOctet o ∧ OctChain 2 m3 := h2
  obtain ⟨o2, m3, he2, ho2, h3⟩ := h2b
  have h3b : ∃ o m4, m3 = o ++ 46 :: m4 ∧ specOctet o ∧ OctChain 1 m4 := h3
  obtain ⟨o3, m4, he3, ho3, h4⟩ := h3b
  have h4b : specOctet m4 := h4
  refine ⟨o1, o2, o3, m4, ?_, ho1, ho2, ho3, h4b⟩
  rw [he1, he2, he3]

theorem ipv4Shape_ne_nil {m : List Nat} (h : IPv4Shape m) : m ≠ [] := by
  obtain ⟨o1, o2, o3, o4, he, _⟩ := h
  intro hni
  rw [he] at hni
  simp at hni

theorem scanIPs_sound :
    ∀ (fuel : Nat) (cs pre0 : List Nat) (prev : Option Nat),
      pre0.getLast? = prev →
      ∀ s ∈ scanIPs fuel prev cs, specIP (pre0 ++ cs) s := by
  intro fuel
  induction fuel with
  | zero =>
    intro cs pre0 prev _ s hs
    simp [scanIPs] at hs
  | succ k ih =>
    intro cs pre0 prev hprev s hs
    cases cs with
    | nil => simp [scanIPs] at hs
    | cons c cs2 =>
      simp only [scanIPs] at hs
      by_cases hb : leftBoundary prev = true
      · rw [if_pos hb] at hs
        cases hm : matchOcts 4 (c :: cs2) with
        | some pr =>
          obtain ⟨m, rest⟩ := pr
          rw [hm] at hs
          obtain ⟨hcs, hchain, hrb⟩ := matchOcts_sound 3 hm
          have hshape : IPv4Shape m := octChain_four hchain
          rcases List.mem_cons.mp hs with hs | hs
          · subst hs
            refine ⟨⟨pre0, rest, ?_, ?_, rightBoundary_spec hrb⟩, hshape⟩
            · rw [hcs, ← List.append_assoc]
            · intro p hp
              rw [hprev] at hp
              rw [hp] at hb
              unfold leftBoundary at hb
              simpa using hb
          · have hmne : m ≠ [] := ipv4Shape_ne_nil hshape
            have hlast : (pre0 ++ m).getLast? = some (m.getLastD c) := by
              rw [List.getLast?_append]
              cases hmm : m.getLast? with
              | none => exact absurd (List.getLast?_eq_none_iff.mp hmm) hmne
              | some x =>
                rw [List.getLastD_eq_getLast?, hmm]
                rfl
            have hrec := ih rest (pre0 ++ m) (some (m.getLastD c)) hlast s hs
            rw [List.append_assoc, ← hcs] at hrec
            exact hrec
        | none =>
          rw [hm] at hs
          have hrec := ih cs2 (pre0 ++ [c]) (some c) (by simp) s hs
          rw [List.append_assoc] at hrec
          simpa using hrec
      · rw [if_neg hb] at hs
        have hrec := ih cs2 (pre0 ++ [c]) (some c) (by simp) s hs
        rw [List.append_assoc] at hrec
        simpa using hrec

/-- C9 counterexample to the claim as stated: in the text `1.2.3.4.5`, the
substring `2.3.4.5` is a dotted-quad IPv4 address delimited by non-word
boundaries, yet `findall` does not return it — the left-to-right scan
consumes `1.2.3.4` and resumes after it, so overlapping candidates are
missed and the result is not "exactly the set" of such substrings. -/
theorem c9_counterexample :
    specIP (codes "1.2.3.4.5") (codes "2.3.4.5")
    ∧ (codes "2.3.4.5") ∉ extract_ips_from_text (codes "1.2.3.4.5") := by
  refine ⟨⟨⟨codes "1.", [], by decide, ?_, ?_⟩, ?_⟩, by decide⟩
  · intro p hp
    rw [show (codes "1.").getLast? = some 46 from rfl] at hp
    cases Option.some_inj.mp hp
    decide
  · intro q hq
    simp at hq
  · exact ⟨[50], [51], [52], [53], by decide, specOctet_one (by omega) (by omega),
      specOctet_one (by omega) (by omega), specOctet_one (by omega) (by omega),
      specOctet_one (by omega) (by omega)⟩

/-- C9 as amended: every string the IP-variant extraction returns is a
substring of the text that is a dotted-quad IPv4 address with each octet in
[0,255], delimited by non-word boundaries, and no line classification is
applied; but the scan is non-overlapping left-to-right, so not every such
substring is returned (soundness holds, exhaustiveness does not). -/
theorem c9_extract_sound (text s : List Nat)
    (h : s ∈ extract_ips_from_text text) : specIP text s := by
  unfold extract_ips_from_text at h
  rw [List.mem_dedup] at h
  have h2 := scanIPs_sound text.length text [] none rfl s h
  simpa using h2

/-- C9 witness: `10.0.0.1` extracted from the middle of a line is a
boundary-delimited dotted quad of that text. -/
theorem c9_witness : specIP (codes "a 10.0.0.1") (codes "10.0.0.1") :=
  c9_extract_sound (codes "a 10.0.0.1") (codes "10.0.0.1") (by decide)
